import Mathlib

/-!
Shallow embedding of the GROA optimizer (src/GROA.py) over exact rationals.

An individual is a `List ℚ` (a real vector); a population is a `List (List ℚ)`;
objective vectors are `List ℚ` rows of the N×M objective array. Randomness is
externalized: every stochastic draw of the Python code becomes an explicit
argument (a noise matrix, a random-fraction matrix, an index choice, or a tape
of such draws), so each definition is a pure function of the code's inputs and
of the random draws it consumes.
-/

namespace GROA

/-- `dominates(a, b) = all(a <= b) and any(a < b)`, the elementwise numpy
comparison of two objective rows (minimization). -/
def dominates (a b : List ℚ) : Bool :=
  ((List.zip a b).all fun p => decide (p.1 ≤ p.2)) &&
    ((List.zip a b).any fun p => decide (p.1 < p.2))

/-- Index characterization of `dominates`: all componentwise `≤` over the
common length, and at least one strict `<`. -/
theorem dominates_iff (a b : List ℚ) :
    dominates a b = true ↔
      (∀ i, (hia : i < a.length) → (hib : i < b.length) → a[i] ≤ b[i]) ∧
        ∃ i, ∃ hia : i < a.length, ∃ hib : i < b.length, a[i] < b[i] := by
  unfold dominates
  rw [Bool.and_eq_true, List.all_eq_true, List.any_eq_true]
  constructor
  · rintro ⟨hall, p, hp, hlt⟩
    constructor
    · intro i hia hib
      have hi : i < (List.zip a b).length := by
        simpa [List.length_zip] using And.intro hia hib
      have := hall ((List.zip a b).get ⟨i, hi⟩) (List.get_mem _ _ _)
      simpa [List.getElem_zip] using this
    · obtain ⟨i, hi, hpeq⟩ := List.mem_iff_getElem.mp hp
      have hia : i < a.length := lt_of_lt_of_le hi (by simp [List.length_zip])
      have hib : i < b.length := lt_of_lt_of_le hi (by simp [List.length_zip])
      refine ⟨i, hia, hib, ?_⟩
      have : ((List.zip a b)[i]).1 < ((List.zip a b)[i]).2 := by
        rw [hpeq]; exact of_decide_eq_true hlt
      simpa [List.getElem_zip] using this
  · rintro ⟨hall, i, hia, hib, hlt⟩
    constructor
    · intro p hp
      obtain ⟨j, hj, hpeq⟩ := List.mem_iff_getElem.mp hp
      have hja : j < a.length := lt_of_lt_of_le hj (by simp [List.length_zip])
      have hjb : j < b.length := lt_of_lt_of_le hj (by simp [List.length_zip])
      subst hpeq
      simpa [List.getElem_zip] using hall j hja hjb
    · have hi : i < (List.zip a b).length := by
        simpa [List.length_zip] using And.intro hia hib
      refine ⟨(List.zip a b).get ⟨i, hi⟩, List.get_mem _ _ _, ?_⟩
      simpa [List.getElem_zip] using hlt

/-- `dominates` never holds of a row against itself. -/
theorem dominates_irrefl (a : List ℚ) : dominates a a = false := by
  rw [← Bool.not_eq_true, dominates_iff]
  rintro ⟨-, i, hia, hib, hlt⟩
  exact absurd hlt (lt_irrefl _)

/-- `dominates` is asymmetric (no length hypotheses needed). -/
theorem dominates_asymm (a b : List ℚ) (hab : dominates a b = true) :
    dominates b a = false := by
  rw [← Bool.not_eq_true, dominates_iff]
  rw [dominates_iff] at hab
  obtain ⟨hle, i, hia, hib, hlt⟩ := hab
  rintro ⟨hle', -⟩
  exact absurd (lt_of_lt_of_le hlt (hle' i hib hia)) (lt_irrefl _)

/-- `dominates` is transitive on rows of equal length. -/
theorem dominates_trans (a b c : List ℚ) (hab : a.length = b.length)
    (hbc : b.length = c.length) (h1 : dominates a b = true)
    (h2 : dominates b c = true) : dominates a c = true := by
  rw [dominates_iff] at h1 h2 ⊢
  obtain ⟨hle1, i, hia, hib, hlt1⟩ := h1
  obtain ⟨hle2, -⟩ := h2
  constructor
  · intro k hka hkc
    have hkb : k < b.length := hab ▸ hka
    exact le_trans (hle1 k hka hkb) (hle2 k hkb hkc)
  · have hic : i < c.length := hbc ▸ hib
    exact ⟨i, hia, hic, lt_of_lt_of_le hlt1 (hle2 i hib hic)⟩

/-- C3: `dominates` is a strict partial order — irreflexive, asymmetric, and
(on equal-length objective rows, as produced by the evaluator) transitive. -/
theorem dominates_strict_partial_order (a b c : List ℚ) :
    dominates a a = false ∧
      (dominates a b = true → dominates b a = false) ∧
      (a.length = b.length → b.length = c.length →
        dominates a b = true → dominates b c = true → dominates a c = true) :=
  ⟨dominates_irrefl a, dominates_asymm a b, dominates_trans a b c⟩

/-- Witness for C3 at concrete rows: `[0,0]` dominates `[0,1]` dominates
`[1,2]`, and the order facts follow by applying the theorem. -/
theorem dominates_strict_partial_order_witness :
    dominates [(0 : ℚ), 0] [0, 0] = false ∧
      dominates [(0 : ℚ), 0] [0, 1] = true ∧
      dominates [(0 : ℚ), 1] [0, 0] = false ∧
      dominates [(0 : ℚ), 1] [1, 2] = true ∧
      dominates [(0 : ℚ), 0] [1, 2] = true :=
  ⟨(dominates_strict_partial_order [0, 0] [0, 1] [1, 2]).1,
    by decide,
    (dominates_strict_partial_order [0, 0] [0, 1] [1, 2]).2.1 (by decide),
    by decide,
    (dominates_strict_partial_order [0, 0] [0, 1] [1, 2]).2.2 rfl rfl
      (by decide) (by decide)⟩

/-- One pass of the `while remaining` loop of `pareto_sort`: the indices of
`remaining` not dominated by any other index of `remaining` (the source checks
`i != j and dominates(objectives[j], objectives[i])`). -/
def front_of (objs : List (List ℚ)) (remaining : List ℕ) : List ℕ :=
  remaining.filter fun i =>
    !(remaining.any fun j =>
      decide (i ≠ j) && dominates (objs.getD j []) (objs.getD i []))

/-- The `while remaining` loop of `pareto_sort`, with explicit fuel. Each pass
collects the non-dominated front and removes it from `remaining`
(`remaining = [i for i in remaining if i not in front]`). -/
def pareto_aux (objs : List (List ℚ)) : ℕ → List ℕ → List (List ℕ)
  | 0, _ => []
  | fuel + 1, remaining =>
    if remaining.isEmpty then []
    else
      let front := front_of objs remaining
      front :: pareto_aux objs fuel (remaining.filter fun i => decide (i ∉ front))

/-- `pareto_sort(objectives, feasibles)`: naive non-dominated sorting of the
index set `{0..N-1}` into fronts (the `feasibles` argument is unused by the
source). Fuel `objs.length` suffices because each pass removes at least one
index (proved below). -/
def pareto_sort (objs : List (List ℚ)) (feasibles : List Bool) : List (List ℕ) :=
  pareto_aux objs objs.length (List.range objs.length)

/-- The keep-condition of one `pareto_sort` pass, characterized: index `i`
survives iff no other remaining index dominates it. -/
theorem keep_pred_iff (objs : List (List ℚ)) (rem : List ℕ) (i : ℕ) :
    (!(rem.any fun j =>
        decide (i ≠ j) && dominates (objs.getD j []) (objs.getD i []))) = true ↔
      ∀ j ∈ rem, i ≠ j → dominates (objs.getD j []) (objs.getD i []) = false := by
  rw [Bool.not_eq_true']
  constructor
  · intro h j hj hne
    rcases Bool.eq_false_or_eq_true
      (dominates (objs.getD j []) (objs.getD i [])) with ht | hf
    · exfalso
      have : (rem.any fun j =>
          decide (i ≠ j) && dominates (objs.getD j []) (objs.getD i [])) = true :=
        List.any_eq_true.mpr ⟨j, hj, by rw [ht, decide_eq_true hne]; rfl⟩
      rw [this] at h
      exact Bool.noConfusion h
    · exact hf
  · intro h
    rcases Bool.eq_false_or_eq_true
      (rem.any fun j =>
        decide (i ≠ j) && dominates (objs.getD j []) (objs.getD i [])) with ht | hf
    · exfalso
      obtain ⟨j, hj, hpj⟩ := List.any_eq_true.mp ht
      rw [Bool.and_eq_true, decide_eq_true_eq] at hpj
      exact absurd hpj.2 (by rw [h j hj hpj.1]; simp)
    · exact hf

/-- Membership in one pass's front: the index is in `remaining` and no other
index of `remaining` dominates it. -/
theorem mem_front_of (objs : List (List ℚ)) (rem : List ℕ) (i : ℕ) :
    i ∈ front_of objs rem ↔
      i ∈ rem ∧ ∀ j ∈ rem, i ≠ j →
        dominates (objs.getD j []) (objs.getD i []) = false := by
  unfold front_of
  rw [List.mem_filter, keep_pred_iff]

/-- A nonempty remaining set whose rows share a common length always
contains an index dominated by no other remaining index (a minimal element
of the strict partial order `dominates`). -/
theorem exists_min (objs : List (List ℚ)) (m : ℕ) :
    ∀ rem : List ℕ, rem ≠ [] → (∀ i ∈ rem, (objs.getD i []).length = m) →
      ∃ i ∈ rem, ∀ j ∈ rem, j ≠ i →
        dominates (objs.getD j []) (objs.getD i []) = false := by
  intro rem
  induction rem with
  | nil => intro h; exact absurd rfl h
  | cons x xs ih =>
    intro _ hlen
    by_cases hxs : xs = []
    · subst hxs
      refine ⟨x, List.mem_cons_self x [], fun j hj hne => ?_⟩
      rcases List.mem_singleton.mp hj with rfl
      exact absurd rfl hne
    · obtain ⟨i₀, hi₀, hmin⟩ :=
        ih hxs fun i hi => hlen i (List.mem_cons_of_mem _ hi)
      by_cases hd : x ≠ i₀ ∧ dominates (objs.getD x []) (objs.getD i₀ []) = true
      · refine ⟨x, List.mem_cons_self _ _, fun j hj hne => ?_⟩
        rcases List.mem_cons.mp hj with rfl | hjxs
        · exact absurd rfl hne
        · rcases Bool.eq_false_or_eq_true
            (dominates (objs.getD j []) (objs.getD x [])) with ht | hf
          · exfalso
            by_cases hji : j = i₀
            · subst hji
              have hasym := dominates_asymm _ _ hd.2
              rw [ht] at hasym
              exact Bool.noConfusion hasym
            · have hlj : (objs.getD j []).length = m :=
                hlen j (List.mem_cons_of_mem _ hjxs)
              have hlx : (objs.getD x []).length = m :=
                hlen x (List.mem_cons_self _ _)
              have hli : (objs.getD i₀ []).length = m :=
                hlen i₀ (List.mem_cons_of_mem _ hi₀)
              have htr := dominates_trans (objs.getD j []) (objs.getD x [])
                (objs.getD i₀ []) (hlj.trans hlx.symm) (hlx.trans hli.symm)
                ht hd.2
              rw [hmin j hjxs hji] at htr
              exact Bool.noConfusion htr
          · exact hf
      · refine ⟨i₀, List.mem_cons_of_mem _ hi₀, fun j hj hne => ?_⟩
        rcases List.mem_cons.mp hj with rfl | hjxs
        · rcases Bool.eq_false_or_eq_true
            (dominates (objs.getD j []) (objs.getD i₀ [])) with ht | hf
          · exact absurd (And.intro hne ht) hd
          · exact hf
        · exact hmin j hjxs hne

/-- Each pass of `pareto_sort` over a nonempty remaining set emits a
nonempty front. -/
theorem front_of_ne_nil (objs : List (List ℚ)) (m : ℕ) (rem : List ℕ)
    (hne : rem ≠ []) (hlen : ∀ i ∈ rem, (objs.getD i []).length = m) :
    front_of objs rem ≠ [] := by
  obtain ⟨i, hi, hmin⟩ := exists_min objs m rem hne hlen
  have hmem : i ∈ front_of objs rem :=
    (mem_front_of _ _ _).mpr ⟨hi, fun j hj hne' => hmin j hj (Ne.symm hne')⟩
  exact List.ne_nil_of_mem hmem

/-- Removing the front from `remaining` strictly shrinks it whenever the
front is nonempty. -/
theorem remaining_shrink (objs : List (List ℚ)) (rem : List ℕ)
    (hne : front_of objs rem ≠ []) :
    (rem.filter fun i => decide (i ∉ front_of objs rem)).length < rem.length := by
  obtain ⟨i, hi⟩ := List.exists_mem_of_ne_nil _ hne
  have hirem : i ∈ rem := List.mem_of_mem_filter hi
  rw [List.length_filter_lt_length_iff_exists]
  refine ⟨i, hirem, ?_⟩
  rw [decide_eq_false (by simpa using hi)]
  simp

/-- The emitted front plus the pruned remainder is a permutation of the
remaining set. -/
theorem front_filter_perm (objs : List (List ℚ)) (rem : List ℕ) :
    List.Perm
      (front_of objs rem ++ rem.filter fun i => decide (i ∉ front_of objs rem))
      rem := by
  have hcongr :
      (rem.filter fun i => decide (i ∉ front_of objs rem)) =
        rem.filter fun i =>
          !(!(rem.any fun j =>
            decide (i ≠ j) && dominates (objs.getD j []) (objs.getD i []))) := by
    refine List.filter_congr fun i hi => ?_
    by_cases hp : (!(rem.any fun j =>
        decide (i ≠ j) && dominates (objs.getD j []) (objs.getD i []))) = true
    · have hmem : i ∈ front_of objs rem := List.mem_filter.mpr ⟨hi, hp⟩
      rw [decide_eq_false (by simpa using hmem), hp]
      rfl
    · have hnmem : i ∉ front_of objs rem := fun hmem =>
        hp (List.mem_filter.mp hmem).2
      rw [decide_eq_true hnmem, Bool.not_eq_true] at *
      rw [hp]
      rfl
  rw [hcongr]
  exact List.filter_append_perm _ rem

/-- Soundness of the fueled `while remaining` loop: with enough fuel, the
emitted fronts are a permutation-partition of `remaining` and every front is
nonempty. -/
theorem pareto_aux_sound (objs : List (List ℚ)) (m : ℕ) :
    ∀ (fuel : ℕ) (rem : List ℕ), rem.length ≤ fuel →
      (∀ i ∈ rem, (objs.getD i []).length = m) →
      List.Perm (pareto_aux objs fuel rem).flatten rem ∧
        ∀ f ∈ pareto_aux objs fuel rem, f ≠ [] := by
  intro fuel
  induction fuel with
  | zero =>
    intro rem hle _
    have hnil : rem = [] := List.length_eq_zero.mp (Nat.le_zero.mp hle)
    subst hnil
    simp [pareto_aux]
  | succ k ih =>
    intro rem hle hlen
    by_cases hrem : rem = []
    · subst hrem
      simp [pareto_aux]
    · have hcond : ¬(rem.isEmpty = true) := by simpa using hrem
      have hfront : front_of objs rem ≠ [] := front_of_ne_nil objs m rem hrem hlen
      have hshrink := remaining_shrink objs rem hfront
      have hle' : (rem.filter fun i => decide (i ∉ front_of objs rem)).length ≤ k :=
        Nat.lt_succ_iff.mp (lt_of_lt_of_le hshrink hle)
      have hlen' : ∀ i ∈ rem.filter fun i => decide (i ∉ front_of objs rem),
          (objs.getD i []).length = m :=
        fun i hi => hlen i (List.mem_of_mem_filter hi)
      obtain ⟨hperm, hne⟩ := ih _ hle' hlen'
      rw [pareto_aux, if_neg hcond]
      dsimp only
      constructor
      · rw [List.flatten_cons]
        exact (hperm.append_left _).trans (front_filter_perm objs rem)
      · intro f hf
        rcases List.mem_cons.mp hf with rfl | hfr
        · exact hfront
        · exact hne f hfr

/-- The loop result does not depend on the fuel, once the fuel is at least
the number of remaining indices: the loop really terminates within
`remaining.length` passes. -/
theorem pareto_aux_fuel (objs : List (List ℚ)) (m : ℕ) :
    ∀ (fuel₁ : ℕ) (fuel₂ : ℕ) (rem : List ℕ), rem.length ≤ fuel₁ →
      rem.length ≤ fuel₂ → (∀ i ∈ rem, (objs.getD i []).length = m) →
      pareto_aux objs fuel₁ rem = pareto_aux objs fuel₂ rem := by
  intro fuel₁
  induction fuel₁ with
  | zero =>
    intro fuel₂ rem hle _ _
    have hnil : rem = [] := List.length_eq_zero.mp (Nat.le_zero.mp hle)
    subst hnil
    cases fuel₂ <;> simp [pareto_aux]
  | succ k ih =>
    intro fuel₂ rem hle₁ hle₂ hlen
    by_cases hrem : rem = []
    · subst hrem
      cases fuel₂ <;> simp [pareto_aux]
    · have hpos : 0 < rem.length := List.length_pos.mpr hrem
      cases fuel₂ with
      | zero => exact absurd (Nat.le_zero.mp hle₂) (Nat.pos_iff_ne_zero.mp hpos)
      | succ k₂ =>
        have hcond : ¬(rem.isEmpty = true) := by simpa using hrem
        have hfront : front_of objs rem ≠ [] :=
          front_of_ne_nil objs m rem hrem hlen
        have hshrink := remaining_shrink objs rem hfront
        have hlen' : ∀ i ∈ rem.filter fun i => decide (i ∉ front_of objs rem),
            (objs.getD i []).length = m :=
          fun i hi => hlen i (List.mem_of_mem_filter hi)
        rw [pareto_aux, if_neg hcond, pareto_aux, if_neg hcond]
        dsimp only
        rw [ih k₂ _ (Nat.lt_succ_iff.mp (lt_of_lt_of_le hshrink hle₁))
          (Nat.lt_succ_iff.mp (lt_of_lt_of_le hshrink hle₂)) hlen']

/-- C1: for an evaluated population (an N×M objective array, all rows of one
length), the fronts of `pareto_sort` partition the index set `{0..N-1}`:
their concatenation is a permutation of `range N`, so every index appears in
exactly one front, with no duplicates and no omissions. -/
theorem pareto_sort_partition (objs : List (List ℚ)) (feas : List Bool) (m : ℕ)
    (hlen : ∀ r ∈ objs, r.length = m) :
    List.Perm (pareto_sort objs feas).flatten (List.range objs.length) := by
  have hlen' : ∀ i ∈ List.range objs.length, (objs.getD i []).length = m := by
    intro i hi
    rw [List.mem_range] at hi
    rw [List.getD_eq_getElem _ _ hi]
    exact hlen _ (List.getElem_mem hi)
  exact (pareto_aux_sound objs m objs.length (List.range objs.length)
    (by simp) hlen').1

/-- Witness for C1 on a concrete 3×2 objective array. -/
theorem pareto_sort_partition_witness :
    (∀ r ∈ ([[0, 0], [0, 1], [1, 0]] : List (List ℚ)), r.length = 2) ∧
      List.Perm (pareto_sort [[0, 0], [0, 1], [1, 0]] [true, true, true]).flatten
        (List.range 3) :=
  ⟨by decide,
    pareto_sort_partition [[0, 0], [0, 1], [1, 0]] [true, true, true] 2
      (by decide)⟩

/-- For a nonempty objective array, front 0 of `pareto_sort` is the set of
indices of the full index range not dominated by any other index. -/
theorem pareto_sort_front0_eq (objs : List (List ℚ)) (feas : List Bool)
    (h : objs ≠ []) :
    (pareto_sort objs feas).getD 0 [] =
      front_of objs (List.range objs.length) := by
  unfold pareto_sort
  cases hn : objs.length with
  | zero => exact absurd (List.length_eq_zero.mp hn) h
  | succ k =>
    have hcond : ¬((List.range (k + 1)).isEmpty = true) := by
      simp [List.range_succ]
    rw [pareto_aux, if_neg hcond]
    rfl

/-- C2: no index of front 0 of `pareto_sort` is dominated by any other index
of the population. -/
theorem pareto_sort_front0_not_dominated (objs : List (List ℚ))
    (feas : List Bool) (i j : ℕ)
    (hi : i ∈ (pareto_sort objs feas).getD 0 [])
    (hj : j < objs.length) (hne : i ≠ j) :
    dominates (objs.getD j []) (objs.getD i []) = false := by
  by_cases hobjs : objs = []
  · subst hobjs
    simp [pareto_sort, pareto_aux] at hi
  · rw [pareto_sort_front0_eq objs feas hobjs] at hi
    exact ((mem_front_of _ _ _).mp hi).2 j (List.mem_range.mpr hj) hne

/-- Witness for C2: in the concrete array `[[0,0],[1,1]]`, index 0 sits in
front 0 and is not dominated by index 1. -/
theorem pareto_sort_front0_not_dominated_witness :
    0 ∈ (pareto_sort [[0, 0], [1, 1]] [true, true]).getD 0 [] ∧
      1 < ([[0, 0], [1, 1]] : List (List ℚ)).length ∧
      dominates (([[0, 0], [1, 1]] : List (List ℚ)).getD 1 [])
        (([[0, 0], [1, 1]] : List (List ℚ)).getD 0 []) = false :=
  ⟨by decide, by decide,
    pareto_sort_front0_not_dominated [[0, 0], [1, 1]] [true, true] 0 1
      (by decide) (by decide) (by decide)⟩

/-- C10: `pareto_sort` terminates on every evaluated population — every
emitted front is nonempty (a non-dominated index always exists among the
remaining ones), and the fueled loop is already stable at fuel `N`, i.e. the
`while` loop finishes within `N` passes. -/
theorem pareto_sort_terminates (objs : List (List ℚ)) (feas : List Bool)
    (m : ℕ) (hlen : ∀ r ∈ objs, r.length = m) :
    (∀ f ∈ pareto_sort objs feas, f ≠ []) ∧
      ∀ fuel, objs.length ≤ fuel →
        pareto_aux objs fuel (List.range objs.length) =
          pareto_sort objs feas := by
  have hlen' : ∀ i ∈ List.range objs.length, (objs.getD i []).length = m := by
    intro i hi
    rw [List.mem_range] at hi
    rw [List.getD_eq_getElem _ _ hi]
    exact hlen _ (List.getElem_mem hi)
  refine ⟨(pareto_aux_sound objs m objs.length (List.range objs.length)
    (by simp) hlen').2, fun fuel hf => ?_⟩
  exact pareto_aux_fuel objs m fuel objs.length (List.range objs.length)
    (by simpa using hf) (by simp) hlen'

/-- Witness for C10 on a concrete 3×2 objective array, checking fuel
stability at fuel 5 ≥ 3. -/
theorem pareto_sort_terminates_witness :
    (∀ f ∈ pareto_sort [[0, 0], [0, 1], [1, 0]] [true, true, true], f ≠ []) ∧
      pareto_aux [[0, 0], [0, 1], [1, 0]] 5 (List.range 3) =
        pareto_sort [[0, 0], [0, 1], [1, 0]] [true, true, true] :=
  ⟨(pareto_sort_terminates [[0, 0], [0, 1], [1, 0]] [true, true, true] 2
      (by decide)).1,
    (pareto_sort_terminates [[0, 0], [0, 1], [1, 0]] [true, true, true] 2
      (by decide)).2 5 (by decide)⟩

/-- `objective_1(x) = x[0]**2 + x[1]**2 + x[2]**2` (minimize weight). -/
def objective_1 (x : List ℚ) : ℚ :=
  x.getD 0 0 ^ 2 + x.getD 1 0 ^ 2 + x.getD 2 0 ^ 2

/-- `objective_2(x) = (x[0]-2)**2 + (x[1]-1)**2 + x[2]**2` (minimize cost). -/
def objective_2 (x : List ℚ) : ℚ :=
  (x.getD 0 0 - 2) ^ 2 + (x.getD 1 0 - 1) ^ 2 + x.getD 2 0 ^ 2

/-- `penalty(x)`: sum of the two constraint violations
`max(0, x[0] + x[1] - 2.5)` and `max(0, 0.5 - x[2])`. -/
def penalty (x : List ℚ) : ℚ :=
  max 0 (x.getD 0 0 + x.getD 1 0 - 5 / 2) + max 0 (1 / 2 - x.getD 2 0)

/-- The body of the `for ind in pop` loop of `evaluate_population`: the
objective row and feasibility flag of one individual. -/
def eval_ind (x : List ℚ) : List ℚ × Bool :=
  let f1 := objective_1 x
  let f2 := objective_2 x
  let pen := penalty x
  if pen = 0 then ([f1, f2], true)
  else ([f1 + 1000 * pen, f2 + 1000 * pen], false)

/-- `evaluate_population(pop)`: the N×2 objective array and the N feasibility
flags, built row by row from `eval_ind`. -/
def evaluate_population (pop : List (List ℚ)) : List (List ℚ) × List Bool :=
  (pop.map fun x => (eval_ind x).1, pop.map fun x => (eval_ind x).2)

/-- The total penalty is a sum of two `max 0 _` terms, hence nonnegative. -/
theorem penalty_nonneg (x : List ℚ) : 0 ≤ penalty x :=
  add_nonneg (le_max_left 0 _) (le_max_left 0 _)

/-- C4: for every individual of the evaluated population, zero total penalty
yields the raw objective values and flag `true`; positive penalty yields each
raw value plus `1000 *` the penalty and flag `false`. -/
theorem evaluate_population_penalty (pop : List (List ℚ)) (i : ℕ)
    (hi : i < pop.length) :
    (penalty (pop.getD i []) = 0 →
        (evaluate_population pop).1.getD i [] =
          [objective_1 (pop.getD i []), objective_2 (pop.getD i [])] ∧
        (evaluate_population pop).2.getD i false = true) ∧
      (0 < penalty (pop.getD i []) →
        (evaluate_population pop).1.getD i [] =
          [objective_1 (pop.getD i []) + 1000 * penalty (pop.getD i []),
            objective_2 (pop.getD i []) + 1000 * penalty (pop.getD i [])] ∧
        (evaluate_population pop).2.getD i false = false) := by
  have h1 : (evaluate_population pop).1.getD i [] = (eval_ind (pop.getD i [])).1 := by
    unfold evaluate_population
    rw [List.getD_eq_getElem _ _ (by simpa using hi), List.getElem_map,
      List.getD_eq_getElem _ _ hi]
  have h2 : (evaluate_population pop).2.getD i false = (eval_ind (pop.getD i [])).2 := by
    unfold evaluate_population
    rw [List.getD_eq_getElem _ _ (by simpa using hi), List.getElem_map,
      List.getD_eq_getElem _ _ hi]
  constructor
  · intro hpen
    rw [h1, h2]
    unfold eval_ind
    rw [if_pos hpen]
    exact ⟨rfl, rfl⟩
  · intro hpen
    rw [h1, h2]
    unfold eval_ind
    rw [if_neg (ne_of_gt hpen)]
    exact ⟨rfl, rfl⟩

/-- Witness for C4: a feasible individual `[0,0,1]` (penalty 0) and an
infeasible one `[3,3,0]` (penalty 4), both in one concrete population. -/
theorem evaluate_population_penalty_witness :
    ((penalty (([[0, 0, 1], [3, 3, 0]] : List (List ℚ)).getD 0 []) = 0 →
        (evaluate_population [[0, 0, 1], [3, 3, 0]]).1.getD 0 [] =
          [objective_1 (([[0, 0, 1], [3, 3, 0]] : List (List ℚ)).getD 0 []),
            objective_2 (([[0, 0, 1], [3, 3, 0]] : List (List ℚ)).getD 0 [])] ∧
        (evaluate_population [[0, 0, 1], [3, 3, 0]]).2.getD 0 false = true) ∧
      (0 < penalty (([[0, 0, 1], [3, 3, 0]] : List (List ℚ)).getD 0 []) →
        (evaluate_population [[0, 0, 1], [3, 3, 0]]).1.getD 0 [] =
          [objective_1 (([[0, 0, 1], [3, 3, 0]] : List (List ℚ)).getD 0 []) +
              1000 * penalty (([[0, 0, 1], [3, 3, 0]] : List (List ℚ)).getD 0 []),
            objective_2 (([[0, 0, 1], [3, 3, 0]] : List (List ℚ)).getD 0 []) +
              1000 * penalty (([[0, 0, 1], [3, 3, 0]] : List (List ℚ)).getD 0 [])] ∧
        (evaluate_population [[0, 0, 1], [3, 3, 0]]).2.getD 0 false = false)) ∧
      penalty (([[0, 0, 1], [3, 3, 0]] : List (List ℚ)).getD 0 []) = 0 ∧
      0 < penalty (([[0, 0, 1], [3, 3, 0]] : List (List ℚ)).getD 1 []) :=
  ⟨evaluate_population_penalty [[0, 0, 1], [3, 3, 0]] 0 (by decide),
    by norm_num [penalty, List.getD, max_def],
    by norm_num [penalty, List.getD, max_def]⟩

/-- `np.clip(pop, 0, 1)`: every coordinate clamped into `[0, 1]`. -/
def clip01 (pop : List (List ℚ)) : List (List ℚ) :=
  pop.map fun row => row.map fun c => max 0 (min 1 c)

/-- `inflow_phase(pop, pressure) = pop + pressure * U` where `U` is the
uniform `[-1, 1]` noise matrix drawn by the code, made explicit here. -/
def inflow_phase (pop : List (List ℚ)) (pressure : ℚ)
    (noise : List (List ℚ)) : List (List ℚ) :=
  List.zipWith (fun row nrow => List.zipWith (fun x u => x + pressure * u) row nrow)
    pop noise

/-- `outflow_phase(pop, best, pressure) = pop + pressure * (best - pop) * R`
where `R` is the uniform `[0, 1)` matrix drawn by the code, made explicit. -/
def outflow_phase (pop : List (List ℚ)) (best : List ℚ) (pressure : ℚ)
    (r : List (List ℚ)) : List (List ℚ) :=
  List.zipWith
    (fun row rrow =>
      List.zipWith (fun xr b => xr.1 + pressure * (b - xr.1) * xr.2)
        (List.zip row rrow) best)
    pop r

/-- The Inflow sub-step of one loop iteration: `inflow_phase` followed by
`np.clip(pop, 0, 1)`. -/
def inflow_step (pop : List (List ℚ)) (pressure : ℚ)
    (noise : List (List ℚ)) : List (List ℚ) :=
  clip01 (inflow_phase pop pressure noise)

/-- The Outflow sub-step of one loop iteration: `outflow_phase` followed by
`np.clip(pop, 0, 1)`. -/
def outflow_step (pop : List (List ℚ)) (best : List ℚ) (pressure : ℚ)
    (r : List (List ℚ)) : List (List ℚ) :=
  clip01 (outflow_phase pop best pressure r)

/-- Every coordinate of a clipped population lies in `[0, 1]`. -/
theorem clip01_mem (pop : List (List ℚ)) (row : List ℚ) (c : ℚ)
    (hrow : row ∈ clip01 pop) (hc : c ∈ row) : 0 ≤ c ∧ c ≤ 1 := by
  obtain ⟨row₀, -, rfl⟩ := List.mem_map.mp hrow
  obtain ⟨c₀, -, rfl⟩ := List.mem_map.mp hc
  exact ⟨le_max_left 0 _, max_le (by norm_num) (min_le_left 1 c₀)⟩

/-- C5: after the Inflow sub-step and after the Outflow sub-step of an
iteration (each phase followed by its clamp), every coordinate of every
individual lies in `[0, 1]`, for any pressure in `[0, 1]` and any pre-step
population, noise and random-fraction draws. -/
theorem phase_steps_clamped (pop : List (List ℚ)) (pressure : ℚ)
    (noise : List (List ℚ)) (best : List ℚ) (r : List (List ℚ))
    (hp : 0 ≤ pressure ∧ pressure ≤ 1) (row row' : List ℚ) (c c' : ℚ) :
    (row ∈ inflow_step pop pressure noise → c ∈ row → 0 ≤ c ∧ c ≤ 1) ∧
      (row' ∈ outflow_step pop best pressure r → c' ∈ row' → 0 ≤ c' ∧ c' ≤ 1) :=
  ⟨fun hrow hc => clip01_mem _ row c hrow hc,
    fun hrow hc => clip01_mem _ row' c' hrow hc⟩

/-- Witness for C5 at a concrete population, pressure 1, and extreme noise
and fraction draws: the clamped coordinates stay in `[0, 1]`. -/
theorem phase_steps_clamped_witness :
    ((0 : ℚ) ≤ 1 ∧ (1 : ℚ) ≤ 1) ∧ ((0 : ℚ) ≤ 1 ∧ (1 : ℚ) ≤ 1) ∧
      ((0 : ℚ) ≤ 0 ∧ (0 : ℚ) ≤ 1) := by
  refine ⟨by norm_num, ?_, ?_⟩
  · exact (phase_steps_clamped [[1, 1, 1]] 1 [[5, 3, -7]] [0, 0, 0] [[1, 1, 1]]
      (by norm_num) [1, 1, 0] [0, 0, 0] 1 0).1
      (by norm_num [inflow_step, inflow_phase, clip01, max_def, min_def])
      (by norm_num)
  · exact (phase_steps_clamped [[1, 1, 1]] 1 [[5, 3, -7]] [0, 0, 0] [[1, 1, 1]]
      (by norm_num) [1, 1, 0] [0, 0, 0] 1 0).2
      (by norm_num [outflow_step, outflow_phase, clip01, max_def, min_def])
      (by norm_num)

/-- `update_pressure(iteration, max_iter) = 1 - iteration / max_iter`. -/
def update_pressure (iteration max_iter : ℕ) : ℚ :=
  1 - (iteration : ℚ) / (max_iter : ℚ)

/-- C6: for positive `T` and `t < T`, the pressure is exactly `1 - t/T`;
it is 1 at `t = 0`, still positive at `t = T - 1`, and strictly decreasing
in `t` for fixed `T`. -/
theorem update_pressure_schedule (T t : ℕ) (hT : 0 < T) (ht : t < T) :
    update_pressure t T = 1 - (t : ℚ) / (T : ℚ) ∧
      update_pressure 0 T = 1 ∧
      0 < update_pressure (T - 1) T ∧
      ∀ t₁ t₂ : ℕ, t₁ < t₂ → update_pressure t₂ T < update_pressure t₁ T := by
  have hT' : (0 : ℚ) < (T : ℚ) := by exact_mod_cast hT
  refine ⟨rfl, by simp [update_pressure], ?_, ?_⟩
  · unfold update_pressure
    rw [sub_pos, div_lt_one hT']
    exact_mod_cast Nat.sub_lt hT one_pos
  · intro t₁ t₂ h12
    unfold update_pressure
    have : (t₁ : ℚ) / (T : ℚ) < (t₂ : ℚ) / (T : ℚ) :=
      (div_lt_div_right hT').mpr (by exact_mod_cast h12)
    exact sub_lt_sub_left this 1

/-- Witness for C6 at `T = 4`, `t = 2`. -/
theorem update_pressure_schedule_witness :
    update_pressure 2 4 = 1 - (2 : ℚ) / (4 : ℚ) ∧
      update_pressure 0 4 = 1 ∧
      0 < update_pressure (4 - 1) 4 ∧
      ∀ t₁ t₂ : ℕ, t₁ < t₂ → update_pressure t₂ 4 < update_pressure t₁ 4 :=
  update_pressure_schedule 4 2 (by decide) (by decide)

/-- The random draws one loop iteration consumes: the `randint` choice of the
best individual, the Inflow noise matrix, and the Outflow fraction matrix. -/
structure StepRand where
  bestIdx : ℕ
  inflowNoise : List (List ℚ)
  outflowR : List (List ℚ)

/-- `best_indices = fronts[0]` of the evaluated population, as computed at the
top of a loop iteration. -/
def best_indices_of (pop : List (List ℚ)) : List ℕ :=
  (pareto_sort (evaluate_population pop).1 (evaluate_population pop).2).getD 0 []

/-- `best = best_solutions[np.random.randint(len(best_solutions))]`, the
random draw modelled as an arbitrary tape value reduced modulo the number of
front-0 solutions. -/
def best_of (pop : List (List ℚ)) (k : ℕ) : List ℚ :=
  let bs := (best_indices_of pop).map fun i => pop.getD i []
  bs.getD (k % bs.length) []

/-- One iteration of the `for t in range(max_iter)` loop of `groa`: evaluate,
rank, pick `best` from front 0, Inflow + clamp, recompute pressure,
Outflow + clamp, overwrite the archive at the front-0 index positions.
`none` models the run aborting with a raised error (`fronts[0]` on an empty
front list, or `np.random.randint(0)` on an empty front). -/
def groa_step (pop : List (List ℚ)) (t T : ℕ) (r : StepRand) :
    Option (List (List ℚ) × List (List ℚ)) :=
  let obj_vals := (evaluate_population pop).1
  let feasibles := (evaluate_population pop).2
  match pareto_sort obj_vals feasibles with
  | [] => none
  | f0 :: _ =>
    if f0.isEmpty then none
    else
      let best := best_of pop r.bestIdx
      let pop1 := inflow_step pop (update_pressure t T) r.inflowNoise
      let pop2 := outflow_step pop1 best (update_pressure t T) r.outflowR
      some (pop2, f0.map fun i => pop2.getD i [])

/-- The loop of `groa`, counting down the remaining iterations; carries the
population and `best_archive`, and returns `(best_archive, final_obj)` as
`groa` does after the loop. -/
def groa_loop (tape : ℕ → StepRand) (T : ℕ) :
    ℕ → List (List ℚ) → List (List ℚ) →
      Option (List (List ℚ) × List (List ℚ))
  | 0, _pop, best_archive =>
    some (best_archive, (evaluate_population best_archive).1)
  | k + 1, pop, _best_archive =>
    match groa_step pop (T - (k + 1)) T (tape (T - (k + 1))) with
    | none => none
    | some (pop2, arch2) => groa_loop tape T k pop2 arch2

/-- `groa(pop_size, dim, max_iter)` with the random initial population made
an explicit argument `pop₀` (the output of `np.random.rand(pop_size, dim)`)
and the per-iteration draws on a tape: runs `T` iterations starting from an
empty archive. `none` models the run dying with a raised error. -/
def groa_model (pop₀ : List (List ℚ)) (T : ℕ) (tape : ℕ → StepRand) :
    Option (List (List ℚ) × List (List ℚ)) :=
  groa_loop tape T T pop₀ []

/-- Every objective row the evaluator produces has exactly two entries. -/
theorem eval_rows_length (pop : List (List ℚ)) :
    ∀ row ∈ (evaluate_population pop).1, row.length = 2 := by
  intro row hrow
  obtain ⟨x, -, rfl⟩ := List.mem_map.mp hrow
  by_cases h : penalty x = 0 <;> simp [eval_ind, h]

/-- Uniform row length transfers to `getD`-indexed rows over the index
range. -/
theorem range_getD_length (objs : List (List ℚ)) (m : ℕ)
    (hlen : ∀ r ∈ objs, r.length = m) :
    ∀ i ∈ List.range objs.length, (objs.getD i []).length = m := by
  intro i hi
  rw [List.mem_range] at hi
  rw [List.getD_eq_getElem _ _ hi]
  exact hlen _ (List.getElem_mem hi)

/-- Unfolding of `pareto_sort` on a nonempty objective array: the first front
is the non-dominated subset of the full index range. -/
theorem pareto_sort_cons (objs : List (List ℚ)) (feas : List Bool)
    (h : objs ≠ []) :
    pareto_sort objs feas =
      front_of objs (List.range objs.length) ::
        pareto_aux objs (objs.length - 1)
          ((List.range objs.length).filter fun i =>
            decide (i ∉ front_of objs (List.range objs.length))) := by
  unfold pareto_sort
  cases hn : objs.length with
  | zero => exact absurd (List.length_eq_zero.mp hn) h
  | succ k =>
    rw [pareto_aux, if_neg (by simp [List.range_succ])]
    rfl

/-- C7: on any nonempty population, one loop iteration succeeds and (a) the
Outflow reference point is `best_of pop`, selected from front 0 of the
pre-Inflow population and not recomputed after Inflow, and (b) the archive is
the Inflow+Outflow-updated population sliced at the front-0 index positions
`best_indices_of pop` computed before the updates. -/
theorem groa_step_stale_best_and_archive (pop : List (List ℚ)) (t T : ℕ)
    (r : StepRand) (hpop : pop ≠ []) :
    groa_step pop t T r =
      some
        (outflow_step (inflow_step pop (update_pressure t T) r.inflowNoise)
          (best_of pop r.bestIdx) (update_pressure t T) r.outflowR,
          (best_indices_of pop).map fun i =>
            (outflow_step (inflow_step pop (update_pressure t T) r.inflowNoise)
              (best_of pop r.bestIdx) (update_pressure t T)
              r.outflowR).getD i []) := by
  have hobjs : (evaluate_population pop).1 ≠ [] := by
    unfold evaluate_population
    simpa using hpop
  have hrange : List.range (evaluate_population pop).1.length ≠ [] := by
    simp only [ne_eq, List.range_eq_nil, List.length_eq_zero]
    exact hobjs
  have hf0 : front_of (evaluate_population pop).1
      (List.range (evaluate_population pop).1.length) ≠ [] :=
    front_of_ne_nil (evaluate_population pop).1 2 _ hrange
      (range_getD_length _ 2 (eval_rows_length pop))
  have hbi : best_indices_of pop =
      front_of (evaluate_population pop).1
        (List.range (evaluate_population pop).1.length) := by
    unfold best_indices_of
    rw [pareto_sort_cons _ _ hobjs]
    rfl
  unfold groa_step
  dsimp only
  rw [pareto_sort_cons _ _ hobjs]
  dsimp only
  rw [if_neg (by simpa using hf0), hbi]

/-- Witness for C7 at a concrete one-individual population and draws. -/
theorem groa_step_stale_best_and_archive_witness :
    ([[(0 : ℚ), 0, 1]] : List (List ℚ)) ≠ [] ∧
      groa_step [[(0 : ℚ), 0, 1]] 0 5 ⟨0, [[1, 1, 1]], [[0, 0, 0]]⟩ =
        some
          (outflow_step
            (inflow_step [[(0 : ℚ), 0, 1]] (update_pressure 0 5) [[1, 1, 1]])
            (best_of [[(0 : ℚ), 0, 1]] 0) (update_pressure 0 5) [[0, 0, 0]],
            (best_indices_of [[(0 : ℚ), 0, 1]]).map fun i =>
              (outflow_step
                (inflow_step [[(0 : ℚ), 0, 1]] (update_pressure 0 5)
                  [[1, 1, 1]])
                (best_of [[(0 : ℚ), 0, 1]] 0) (update_pressure 0 5)
                [[0, 0, 0]]).getD i []) :=
  ⟨List.cons_ne_nil _ _,
    groa_step_stale_best_and_archive [[(0 : ℚ), 0, 1]] 0 5
      ⟨0, [[1, 1, 1]], [[0, 0, 0]]⟩ (List.cons_ne_nil _ _)⟩

/-- Counterexample to C8 as stated: with the non-positive iteration count
`max_iter = 0` (and a perfectly ordinary population), `groa` does not signal
any configuration error — it runs zero iterations and returns a result, the
empty archive with its empty objective array. -/
theorem groa_no_config_check_counterexample :
    groa_model [[(1 : ℚ) / 2, 1 / 2, 1 / 2], [1 / 2, 1 / 2, 1 / 2]] 0
      (fun _ => ⟨0, [], []⟩) = some ([], []) := rfl

/-- C8 amended: `groa` performs no configuration validation. With iteration
count 0 it returns the empty archive and empty objectives without error, for
any population; with an empty population (population size 0) and a positive
iteration count, the run dies inside the first loop iteration (at the
`fronts[0]` selection), not at a pre-loop configuration check. -/
theorem groa_no_config_check (pop₀ : List (List ℚ)) (T : ℕ)
    (tape : ℕ → StepRand) (hT : 0 < T) :
    groa_model pop₀ 0 tape = some ([], []) ∧ groa_model [] T tape = none := by
  constructor
  · rfl
  · cases T with
    | zero => exact absurd hT (lt_irrefl 0)
    | succ k => rfl

/-- Witness for the amended C8 at `T = 1` and a concrete population. -/
theorem groa_no_config_check_witness :
    0 < 1 ∧
      (groa_model [[(1 : ℚ), 0, 0]] 0 (fun _ => ⟨0, [], []⟩) = some ([], []) ∧
        groa_model [] 1 (fun _ => ⟨0, [], []⟩) = none) :=
  ⟨Nat.one_pos,
    groa_no_config_check [[(1 : ℚ), 0, 0]] 1 (fun _ => ⟨0, [], []⟩)
      Nat.one_pos⟩

end GROA
